import Mathlib

/-!
# Verification of the translation-key reconciliation script

Shallow embedding of `src/extract_translations.py`, a script that

* collects the quoted values of every `data-translate="([^"]+)"` and
  `data-translate-placeholder="([^"]+)"` match in an HTML text
  (`re.findall`), forms their deduplicated union (`set`) and sorts it
  (`sorted`)  — the required keys;
* for each locale label `en`, `es`, `pl`, searches the script text for the
  first match of `LABEL:\s*\x7b([^\x7d]+)\x7d` (`re.search` with `re.DOTALL`) and, when
  found, collects every `(\w+):` match inside the captured block — the
  defined keys — and lists the required keys that are not among them;
  when the label pattern is not found the locale is skipped entirely.

The regular expressions are embedded as explicit character scanners with the
exact matching semantics of the patterns involved (none of them backtracks
usefully: each is a literal, followed by a maximal character-class run,
followed by a single required character).  Python's `\w` and `\s` are modelled
by their ASCII meaning; the inputs considered are ASCII.
-/

/-- ASCII model of the Python regex class `\w`: letter, digit or underscore. -/
def isWordChar (c : Char) : Bool := c.isAlphanum || c = '_'

/-- ASCII model of the Python regex class `\s`. -/
def isPySpace (c : Char) : Bool :=
  c = ' ' || c = '\t' || c = '\n' || c = '\r' || c = '\x0b' || c = '\x0c'

/-- Match the literal character sequence `lit` at the head of `s`; on success
return the remainder.  Models matching the literal part of a regex at a fixed
position. -/
def dropLit : List Char → List Char → Option (List Char)
  | [], s => some s
  | _ :: _, [] => none
  | p :: ps, c :: cs => if c = p then dropLit ps cs else none

/-- One attempt of the pattern `marker([^\x22]+)\x22` at the start of `s`, where
`marker` is the literal prefix of the pattern up to and including the opening
quote.  After the literal, a maximal nonempty run of non-quote characters must
be followed by the closing quote; the run is the capture, and the remainder
after the closing quote is returned for the continuation of the scan. -/
def tryAttr (marker : List Char) (s : List Char) : Option (List Char × List Char) :=
  match dropLit marker s with
  | none => none
  | some rest =>
    match rest.dropWhile (fun c => decide (c ≠ '\x22')) with
    | [] => none
    | _ :: rest2 =>
      if rest.takeWhile (fun c => decide (c ≠ '\x22')) = [] then none
      else some (rest.takeWhile (fun c => decide (c ≠ '\x22')), rest2)

/-- `re.findall` for the attribute pattern: try a match at every position from
left to right; on a match emit the capture and continue after the match,
otherwise advance one character.  `fuel` bounds the recursion; every step
consumes at least one character, so the `fuel = length` supplied by `scanAttr`
never cuts the scan short. -/
def scanAttrAux (marker : List Char) : Nat → List Char → List (List Char)
  | 0, _ => []
  | _ + 1, [] => []
  | fuel + 1, c :: cs =>
    match tryAttr marker (c :: cs) with
    | some (cap, rest) => cap :: scanAttrAux marker fuel rest
    | none => scanAttrAux marker fuel cs

/-- The captured values of all matches of `marker([^\x22]+)\x22` in `text`, in
order (Python `re.findall` returns the capture groups). -/
def scanAttr (marker : List Char) (text : String) : List String :=
  (scanAttrAux marker text.data.length text.data).map (fun cap => ⟨cap⟩)

/-- Line 10 of the script:
`translate_matches = re.findall(r'data-translate="([^"]+)"', html_content)`. -/
def translateMatches (html : String) : List String :=
  scanAttr "data-translate=\x22".data html

/-- Line 14 of the script: `placeholder_matches =
re.findall(r'data-translate-placeholder="([^"]+)"', html_content)`. -/
def placeholderMatches (html : String) : List String :=
  scanAttr "data-translate-placeholder=\x22".data html

/-- Lexicographic (code-point) order on character lists — the order Python's
`sorted` uses on strings. -/
def lexLe : List Char → List Char → Bool
  | [], _ => true
  | _ :: _, [] => false
  | a :: as, b :: bs => if a = b then lexLe as bs else decide (a < b)

/-- Lexicographic order on strings, as a proposition. -/
def strLe (s t : String) : Prop := lexLe s.data t.data = true

instance : DecidableRel strLe := fun s t =>
  inferInstanceAs (Decidable (lexLe s.data t.data = true))

/-- Lines 17–18 of the script: `all_keys = set(translate_matches +
placeholder_matches)`, `sorted_keys = sorted(all_keys)` — the deduplicated
union of the two match lists, in ascending lexicographic order. -/
def requiredKeys (html : String) : List String :=
  List.insertionSort strLe ((translateMatches html ++ placeholderMatches html).dedup)

/-- One attempt of the pattern `(\w+):` at the start of `s`: a maximal nonempty
run of word characters must be followed by a colon; the run is the capture and
the remainder after the colon continues the scan. -/
def tryWordColon (s : List Char) : Option (List Char × List Char) :=
  if s.takeWhile isWordChar = [] then none
  else
    match s.dropWhile isWordChar with
    | ':' :: rest => some (s.takeWhile isWordChar, rest)
    | _ => none

/-- `re.findall(r'(\w+):', content)` as a left-to-right scan, with the same
fuel discipline as `scanAttrAux`. -/
def scanWordColonAux : Nat → List Char → List (List Char)
  | 0, _ => []
  | _ + 1, [] => []
  | fuel + 1, c :: cs =>
    match tryWordColon (c :: cs) with
    | some (run, rest) => run :: scanWordColonAux fuel rest
    | none => scanWordColonAux fuel cs

/-- Lines 38/60/82 of the script: the `(\w+):` matches inside a captured
locale block. -/
def findWordColon (content : List Char) : List String :=
  (scanWordColonAux content.length content).map (fun run => ⟨run⟩)

/-- One attempt of the pattern `label\s*\x7b([^\x7d]+)\x7d` at the start of `s`, where
`label` is the literal `LOCALE:`: after the literal, maximal whitespace, then
an opening brace, then a maximal nonempty run of non-closing-brace characters
(the capture), then the closing brace.  The capture therefore always ends at
the first closing brace after the opening one. -/
def tryBlock (label : List Char) (s : List Char) : Option (List Char) :=
  match dropLit label s with
  | none => none
  | some rest =>
    match rest.dropWhile isPySpace with
    | '\x7b' :: rest2 =>
      if rest2.takeWhile (fun c => decide (c ≠ '\x7d')) = [] then none
      else
        match rest2.dropWhile (fun c => decide (c ≠ '\x7d')) with
        | [] => none
        | _ :: _ => some (rest2.takeWhile (fun c => decide (c ≠ '\x7d')))
    | _ => none

/-- `re.search` for the locale-block pattern: the attempt is made at every
position from left to right and the first successful match wins; `none` when
no position matches. -/
def searchBlock (label : List Char) : List Char → Option (List Char)
  | [] => none
  | c :: cs =>
    match tryBlock label (c :: cs) with
    | some cap => some cap
    | none => searchBlock label cs

/-- Lines 34–35 (and 56–57, 78–79) of the script: `re.search(locale +
r':\s*\x7b([^\x7d]+)\x7d', script_content, re.DOTALL)`, returning the captured block
body when the pattern matches anywhere. -/
def localeBlock (script : String) (locale : String) : Option (List Char) :=
  searchBlock (locale.data ++ [':']) script.data

/-- The keys a locale defines: the `(\w+):` matches inside the locale's
captured block, or `none` when the block pattern is not found (in which case
the script skips the locale entirely). -/
def localeKeys (script : String) (locale : String) : Option (List String) :=
  (localeBlock script locale).map findWordColon

/-- What the script reports for one locale whose block pattern was found: the
printed defined-key count (line 40), the list of missing keys (lines 43–46),
and whether the script prints the "all keys have corresponding translations"
message (lines 48–53), which it does exactly when `missing` is empty. -/
structure LocaleReport where
  definedCount : Nat
  missing : List String
  complete : Bool
deriving DecidableEq

/-- Lines 36–53 (and their `es`/`pl` copies) of the script: when the locale's
block pattern is found, the count of its keys, the required keys that are not
among them (`for key in sorted_keys: if key not in en_keys`), and the
completeness flag; when the block pattern is not found, `none` — the entire
`if` body is skipped and the locale produces no output at all. -/
def processLocale (sortedKeys : List String) (script : String) (locale : String) :
    Option LocaleReport :=
  (localeKeys script locale).map (fun keys =>
    ⟨keys.length, sortedKeys.filter (fun k => decide (k ∉ keys)),
     (sortedKeys.filter (fun k => decide (k ∉ keys))).isEmpty⟩)

/-- The fixed locale list the script checks: `en` (line 34), `es` (line 56),
`pl` (line 78). -/
def locales : List String := ["en", "es", "pl"]

/-- The whole run: the required keys from the HTML text and, per configured
locale, the report (or `none` for a skipped locale). -/
def runReport (html script : String) : List (String × Option LocaleReport) :=
  locales.map (fun loc => (loc, processLocale (requiredKeys html) script loc))

/-! ## Helper lemmas about the scanners -/

theorem dropLit_eq_append : ∀ (p s r : List Char), dropLit p s = some r → s = p ++ r := by
  intro p
  induction p with
  | nil => intro s r h; simp [dropLit] at h; simp [h]
  | cons a ps ih =>
    intro s r h
    cases s with
    | nil => simp [dropLit] at h
    | cons c cs =>
      simp only [dropLit] at h
      by_cases hc : c = a
      · rw [if_pos hc] at h
        have := ih cs r h
        simp [hc, this]
      · rw [if_neg hc] at h
        exact absurd h (by simp)

theorem dropWhile_head_false (p : Char → Bool) :
    ∀ (l : List Char) (b : Char) (t : List Char), l.dropWhile p = b :: t → p b = false := by
  intro l
  induction l with
  | nil => intro b t h; simp [List.dropWhile] at h
  | cons c cs ih =>
    intro b t h
    rw [List.dropWhile_cons] at h
    by_cases hc : p c = true
    · rw [if_pos hc] at h; exact ih b t h
    · rw [if_neg hc] at h
      obtain ⟨rfl, rfl⟩ : c = b ∧ cs = t := by
        injection h with h1 h2; exact ⟨h1, h2⟩
      exact Bool.not_eq_true _ |>.mp hc

theorem tryWordColon_some {s run rest : List Char} (h : tryWordColon s = some (run, rest)) :
    run = s.takeWhile isWordChar ∧ run ≠ [] ∧ s.dropWhile isWordChar = ':' :: rest := by
  unfold tryWordColon at h
  split at h
  · exact absurd h (by simp)
  · rename_i hne
    split at h
    · rename_i rest0 heq
      obtain ⟨rfl, rfl⟩ : s.takeWhile isWordChar = run ∧ rest0 = rest := by
        injection h with h1
        injection h1 with h2 h3
        exact ⟨h2, h3⟩
      exact ⟨rfl, hne, heq⟩
    · exact absurd h (by simp)

theorem lexLe_total : ∀ x y : List Char, lexLe x y = true ∨ lexLe y x = true := by
  intro x
  induction x with
  | nil => intro y; left; rfl
  | cons a as ih =>
    intro y
    cases y with
    | nil => right; rfl
    | cons b bs =>
      by_cases hab : a = b
      · subst hab
        simp only [lexLe, if_pos rfl]
        exact ih bs
      · rcases lt_trichotomy a b with hlt | heq | hgt
        · left; simp [lexLe, hab, hlt]
        · exact absurd heq hab
        · right
          have hba : ¬ b = a := fun hh => hab hh.symm
          simp [lexLe, hba, hgt]

theorem lexLe_trans : ∀ x y z : List Char,
    lexLe x y = true → lexLe y z = true → lexLe x z = true := by
  intro x
  induction x with
  | nil => intro y z _ _; rfl
  | cons a as ih =>
    intro y z hxy hyz
    cases y with
    | nil => simp [lexLe] at hxy
    | cons b bs =>
      cases z with
      | nil => simp [lexLe] at hyz
      | cons c cs =>
        simp only [lexLe] at hxy hyz ⊢
        by_cases hab : a = b
        · subst hab
          rw [if_pos rfl] at hxy
          by_cases hac : a = c
          · subst hac
            rw [if_pos rfl] at hyz ⊢
            exact ih bs cs hxy hyz
          · rw [if_neg hac] at hyz ⊢
            exact hyz
        · rw [if_neg hab] at hxy
          have hab2 : a < b := of_decide_eq_true hxy
          by_cases hbc : b = c
          · subst hbc
            have hac : ¬ a = b := hab
            rw [if_neg hac]
            exact decide_eq_true hab2
          · rw [if_neg hbc] at hyz
            have hbc2 : b < c := of_decide_eq_true hyz
            have hac2 : a < c := lt_trans hab2 hbc2
            have hac : ¬ a = c := fun hh => absurd hac2 (hh ▸ lt_irrefl _)
            rw [if_neg hac]
            exact decide_eq_true hac2

instance : IsTotal String strLe := ⟨fun s t => lexLe_total s.data t.data⟩

instance : IsTrans String strLe := ⟨fun s t u => lexLe_trans s.data t.data u.data⟩

theorem requiredKeys_mem (html : String) (k : String) :
    k ∈ requiredKeys html ↔ k ∈ translateMatches html ∨ k ∈ placeholderMatches html := by
  unfold requiredKeys
  rw [List.mem_insertionSort, List.mem_dedup, List.mem_append]

theorem requiredKeys_nodup (html : String) : (requiredKeys html).Nodup := by
  unfold requiredKeys
  exact (List.perm_insertionSort strLe _).nodup_iff.mpr (List.nodup_dedup _)

theorem requiredKeys_sorted (html : String) : (requiredKeys html).Sorted strLe := by
  unfold requiredKeys
  exact List.sorted_insertionSort strLe _

theorem mem_scanWordColonAux :
    ∀ (fuel : Nat) (s run : List Char), run ∈ scanWordColonAux fuel s →
      run ≠ [] ∧ run.all isWordChar = true ∧ run <:+: s := by
  intro fuel
  induction fuel with
  | zero => intro s run h; simp [scanWordColonAux] at h
  | succ n ih =>
    intro s run h
    cases s with
    | nil => simp [scanWordColonAux] at h
    | cons c cs =>
      simp only [scanWordColonAux] at h
      cases htw : tryWordColon (c :: cs) with
      | none =>
        rw [htw] at h
        have hrec := ih cs run h
        exact ⟨hrec.1, hrec.2.1, hrec.2.2.trans (List.suffix_cons c cs).isInfix⟩
      | some pr =>
        obtain ⟨run0, rest⟩ := pr
        rw [htw] at h
        simp only [List.mem_cons] at h
        obtain ⟨hr, hne, hdw⟩ := tryWordColon_some htw
        cases h with
        | inl hEq =>
          subst hEq
          refine ⟨hne, ?_, ?_⟩
          · rw [hr, List.all_eq_true]
            intro x hx
            exact List.mem_takeWhile_imp hx
          · rw [hr]
            exact ( List.takeWhile_prefix _).isInfix
        | inr hmem =>
          have hrec := ih rest run hmem
          have h1 : (c :: cs).dropWhile isWordChar <:+ (c :: cs) :=
            List.dropWhile_suffix isWordChar
          rw [hdw] at h1
          have hsuf : rest <:+ (c :: cs) := (List.suffix_cons ':' rest).trans h1
          exact ⟨hrec.1, hrec.2.1, hrec.2.2.trans hsuf.isInfix⟩

theorem mem_findWordColon {content : List Char} {k : String} (h : k ∈ findWordColon content) :
    k.data ≠ [] ∧ k.data.all isWordChar = true ∧ k.data <:+: content := by
  unfold findWordColon at h
  simp only [List.mem_map] at h
  obtain ⟨run, hrun, rfl⟩ := h
  exact mem_scanWordColonAux content.length content run hrun

theorem tryAttr_some_ne {marker s cap rest : List Char}
    (h : tryAttr marker s = some (cap, rest)) : cap ≠ [] := by
  unfold tryAttr at h
  split at h
  · exact absurd h (by simp)
  · split at h
    · exact absurd h (by simp)
    · split at h
      · exact absurd h (by simp)
      · rename_i hne
        simp only [Option.some.injEq, Prod.mk.injEq] at h
        obtain ⟨rfl, rfl⟩ := h
        exact hne

theorem mem_scanAttrAux :
    ∀ (fuel : Nat) (marker s cap : List Char), cap ∈ scanAttrAux marker fuel s → cap ≠ [] := by
  intro fuel
  induction fuel with
  | zero => intro marker s cap h; simp [scanAttrAux] at h
  | succ n ih =>
    intro marker s cap h
    cases s with
    | nil => simp [scanAttrAux] at h
    | cons c cs =>
      simp only [scanAttrAux] at h
      cases hta : tryAttr marker (c :: cs) with
      | none => rw [hta] at h; exact ih marker cs cap h
      | some pr =>
        obtain ⟨cap0, rest⟩ := pr
        rw [hta] at h
        simp only [List.mem_cons] at h
        cases h with
        | inl hEq => subst hEq; exact tryAttr_some_ne hta
        | inr hmem => exact ih marker rest cap hmem

theorem mem_takeWhile_pred {p : Char → Bool} :
    ∀ (l : List Char) (x : Char), x ∈ l.takeWhile p → p x = true := by
  intro l
  induction l with
  | nil => intro x h; simp [List.takeWhile] at h
  | cons c cs ih =>
    intro x h
    rw [List.takeWhile_cons] at h
    by_cases hc : p c = true
    · rw [if_pos hc] at h
      rcases List.mem_cons.mp h with rfl | hmem
      · exact hc
      · exact ih x hmem
    · rw [if_neg hc] at h
      simp at h

theorem tryBlock_some {label s cap : List Char} (h : tryBlock label s = some cap) :
    ∃ ws rest, s = label ++ ws ++ '\x7b' :: (cap ++ '\x7d' :: rest) ∧
      ws.all isPySpace = true ∧ cap ≠ [] ∧ ∀ c ∈ cap, c ≠ '\x7d' := by
  unfold tryBlock at h
  split at h
  · exact absurd h (by simp)
  · rename_i rest0 hd
    split at h
    · rename_i rest2 heq2
      split at h
      · exact absurd h (by simp)
      · rename_i hnem
        split at h
        · exact absurd h (by simp)
        · rename_i d rest3 heq3
          simp only [Option.some.injEq] at h
          subst h
          have hs0 : s = label ++ rest0 := dropLit_eq_append label s rest0 hd
          have hdcl : d = '\x7d' := by
            have hd2 : decide (d ≠ '\x7d') = false :=
              dropWhile_head_false (fun c => decide (c ≠ '\x7d')) rest2 d rest3 heq3
            exact not_not.mp (of_decide_eq_false hd2)
          subst hdcl
          have hws : rest0 = rest0.takeWhile isPySpace ++ '\x7b' :: rest2 := by
            rw [← heq2, List.takeWhile_append_dropWhile]
          have hr2 : rest2 = rest2.takeWhile (fun c => decide (c ≠ '\x7d')) ++ '\x7d' :: rest3 := by
            rw [← heq3, List.takeWhile_append_dropWhile]
          refine ⟨rest0.takeWhile isPySpace, rest3, ?_, ?_, hnem, ?_⟩
          · rw [hs0]
            conv_lhs => rw [hws]
            conv_lhs => rw [hr2]
            simp
          · rw [List.all_eq_true]
            intro x hx
            exact List.mem_takeWhile_imp hx
          · intro c hc
            have h3 := mem_takeWhile_pred _ c hc
            exact of_decide_eq_true h3
    · exact absurd h (by simp)

theorem searchBlock_some {label : List Char} :
    ∀ {s cap : List Char}, searchBlock label s = some cap →
      ∃ pre ws rest, s = pre ++ label ++ ws ++ '\x7b' :: (cap ++ '\x7d' :: rest) ∧
        ws.all isPySpace = true ∧ cap ≠ [] ∧ ∀ c ∈ cap, c ≠ '\x7d' := by
  intro s
  induction s with
  | nil => intro cap h; simp [searchBlock] at h
  | cons c cs ih =>
    intro cap h
    simp only [searchBlock] at h
    cases htb : tryBlock label (c :: cs) with
    | some cap0 =>
      rw [htb] at h
      obtain rfl : cap0 = cap := by injection h
      obtain ⟨ws, rest, hs, hws, hne, hmem⟩ := tryBlock_some htb
      exact ⟨[], ws, rest, by simpa using hs, hws, hne, hmem⟩
    | none =>
      rw [htb] at h
      obtain ⟨pre, ws, rest, hs, hws, hne, hmem⟩ := ih h
      exact ⟨c :: pre, ws, rest, by simp [hs], hws, hne, hmem⟩

theorem searchBlock_isInfix {label s cap : List Char} (h : searchBlock label s = some cap) :
    cap <:+: s := by
  obtain ⟨pre, ws, rest, hs, -, -, -⟩ := searchBlock_some h
  exact ⟨pre ++ label ++ ws ++ ['\x7b'], '\x7d' :: rest, by rw [hs]; simp⟩

theorem searchBlock_no_close {label s cap : List Char} (h : searchBlock label s = some cap) :
    '\x7d' ∉ cap := by
  obtain ⟨-, -, -, -, -, -, hmem⟩ := searchBlock_some h
  exact fun hc => (hmem _ hc) rfl

theorem processLocale_eq {sortedKeys : List String} {script locale : String}
    {keys : List String} (h : localeKeys script locale = some keys) :
    processLocale sortedKeys script locale =
      some ⟨keys.length, sortedKeys.filter (fun k => decide (k ∉ keys)),
        (sortedKeys.filter (fun k => decide (k ∉ keys))).isEmpty⟩ := by
  unfold processLocale
  rw [h]
  rfl

/-! ## Example inputs used by the claims -/

/-- The markup of the spec's concrete scenario: one `data-translate` attribute with
value `title` and one `data-translate-placeholder` attribute with value `search`. -/
def exMarkup : String :=
  "<h1 data-translate=\x22title\x22></h1><input data-translate-placeholder=\x22search\x22>"

/-- The catalog of the spec's concrete scenario: a primary-locale (`en`) block whose
body is `title: \x22Hello\x22`. -/
def exCatalog : String := "en: \x7btitle: \x22Hello\x22\x7d"

/-- A catalog whose `en` block has a value containing a nested closing brace before
the later key `b`: `en: \x7ba: \x22x\x7d\x22, b: \x22y\x22\x7d`. -/
def exNestedClose : String := "en: \x7ba: \x22x\x7d\x22, b: \x22y\x22\x7d"

/-- A catalog whose only intended block is the `es` one, with text shaped so that
the `en:` label pattern occurs nested inside the `es` block:
`es: \x7ben: \x7bx: 1\x7d\x7d`. -/
def exCrossLocale : String := "es: \x7ben: \x7bx: 1\x7d\x7d"

/-- A catalog whose `en` block lists the key `a` twice: `en: \x7ba: 1, a: 2\x7d`. -/
def exDuplicate : String := "en: \x7ba: 1, a: 2\x7d"

/-- A catalog text containing none of the configured locale labels. -/
def exNoLabel : String := "var x = 1"

/-! ## The claims -/

/-- Claim C1: for every required-key set produced from a markup text and every
locale whose catalog block is found, the missing list contains exactly the required
keys that are not among the locale's defined keys (hence it is a subset of the
required keys), and it is listed in the sorted lexicographic order of the
required-key set. -/
theorem reconcile_missing_exact_sorted (html script locale : String) (keys : List String)
    (r : LocaleReport) (hk : localeKeys script locale = some keys)
    (hr : processLocale (requiredKeys html) script locale = some r) :
    (∀ k, k ∈ r.missing ↔ (k ∈ requiredKeys html ∧ k ∉ keys)) ∧
    (∀ k ∈ r.missing, k ∈ requiredKeys html) ∧
    r.missing.Sorted strLe := by
  have heq := @processLocale_eq (requiredKeys html) script locale keys hk
  rw [hr] at heq
  have hr2 := Option.some.inj heq
  subst hr2
  refine ⟨?_, ?_, ?_⟩
  · intro k
    simp [List.mem_filter]
  · intro k hkm
    exact (List.mem_filter.mp hkm).1
  · exact List.Pairwise.sublist (List.filter_sublist _) (requiredKeys_sorted html)

/-- Witness for C1, at the spec's concrete scenario. -/
theorem reconcile_missing_exact_sorted_witness :
    (∀ k, k ∈ (⟨1, ["search"], false⟩ : LocaleReport).missing ↔
        (k ∈ requiredKeys exMarkup ∧ k ∉ (["title"] : List String))) ∧
    (∀ k ∈ (⟨1, ["search"], false⟩ : LocaleReport).missing, k ∈ requiredKeys exMarkup) ∧
    (⟨1, ["search"], false⟩ : LocaleReport).missing.Sorted strLe :=
  reconcile_missing_exact_sorted exMarkup exCatalog "en" ["title"] ⟨1, ["search"], false⟩
    (by rfl) (by rfl)

/-- Claim C2: the scanned extent of a locale's block ends at the first closing
brace encountered after the locale's label — the captured block body never contains
a closing brace — and consequently, in a catalog where the `en` value contains a
nested closing brace before the later key `b`, the key `b` is absent from the `en`
defined-key set (only `a` is found). -/
theorem block_truncation_first_close :
    (∀ (label s cap : List Char), searchBlock label s = some cap → '\x7d' ∉ cap) ∧
    localeKeys exNestedClose "en" = some ["a"] ∧
    "b" ∉ (localeKeys exNestedClose "en").getD [] := by
  refine ⟨?_, by rfl, by decide⟩
  intro label s cap h
  exact searchBlock_no_close h

/-- Witness for C2: the block body captured from the nested-brace catalog contains
no closing brace. -/
theorem block_truncation_first_close_witness :
    '\x7d' ∉ ("a: \x22x".data) :=
  block_truncation_first_close.1 ("en:".data) (exNestedClose.data) ("a: \x22x".data) (by rfl)

/-- Claim C3 counterexample: for a catalog text with no `en` label, the script does
not produce an empty defined-key set together with a full missing report — it
produces nothing at all for that locale, so the per-locale result is `none` rather
than a report with `missing = required`. -/
theorem missing_label_counterexample :
    localeKeys exNoLabel "en" = none ∧
    processLocale ["title"] exNoLabel "en" = none :=
  ⟨rfl, rfl⟩

/-- Claim C3 as amended: when the locale's label pattern is not found, the script
does not fail, but it also does not report — the locale is skipped entirely: there
is a locale report exactly when the block pattern is found. -/
theorem missing_label_skips_locale (sortedKeys : List String) (script locale : String) :
    processLocale sortedKeys script locale = none ↔ localeKeys script locale = none := by
  unfold processLocale
  cases h : localeKeys script locale with
  | none => simp
  | some keys => simp

/-- Witness for the amended C3, at a concrete label-free catalog. -/
theorem missing_label_skips_locale_witness :
    processLocale ["title"] exNoLabel "en" = none ↔ localeKeys exNoLabel "en" = none :=
  missing_label_skips_locale ["title"] exNoLabel "en"

/-- Claim C4 counterexample: in a catalog whose `en` block lists the key `a` twice,
the extracted key collection is the list `["a", "a"]` — not a deduplicated set —
and the reported defined-key count is 2, while the number of distinct keys is 1. -/
theorem defined_count_duplicates_counterexample :
    localeKeys exDuplicate "en" = some ["a", "a"] ∧
    processLocale [] exDuplicate "en" = some ⟨2, [], true⟩ ∧
    (["a", "a"] : List String).dedup.length = 1 :=
  ⟨rfl, rfl, by decide⟩

/-- Claim C4 as amended: the per-locale key collection is the list of every
`identifier:` occurrence in the captured block, not a deduplicated set; the reported
defined count equals the number of occurrences — at least, and possibly more than,
the number of distinct keys — while missing-key membership is unaffected by the
duplication. -/
theorem defined_count_occurrences (sortedKeys : List String) (script locale : String)
    (keys : List String) (r : LocaleReport) (hk : localeKeys script locale = some keys)
    (hr : processLocale sortedKeys script locale = some r) :
    r.definedCount = keys.length ∧ keys.dedup.length ≤ r.definedCount ∧
    r.missing = sortedKeys.filter (fun k => decide (k ∉ keys.dedup)) := by
  have heq := @processLocale_eq sortedKeys script locale keys hk
  rw [hr] at heq
  have hr2 := Option.some.inj heq
  subst hr2
  refine ⟨rfl, (List.dedup_sublist keys).length_le, ?_⟩
  apply List.filter_congr
  intro x hx
  apply decide_eq_decide.mpr
  simp [List.mem_dedup]

/-- Witness for the amended C4, at the duplicate-key catalog. -/
theorem defined_count_occurrences_witness :
    (⟨2, [], true⟩ : LocaleReport).definedCount = (["a", "a"] : List String).length ∧
    (["a", "a"] : List String).dedup.length ≤ (⟨2, [], true⟩ : LocaleReport).definedCount ∧
    (⟨2, [], true⟩ : LocaleReport).missing =
      ([] : List String).filter (fun k => decide (k ∉ (["a", "a"] : List String).dedup)) :=
  defined_count_occurrences [] exDuplicate "en" ["a", "a"] ⟨2, [], true⟩ (by rfl) (by rfl)

/-- Claim C5 counterexample: in a catalog whose only intended block is the `es`
one, the `en:` label pattern matches nested inside the `es` block, so the key `x` —
which occurs only inside the `es` block — is a member of the `en` defined-key set. -/
theorem cross_locale_leak_counterexample :
    localeKeys exCrossLocale "en" = some ["x"] ∧
    localeKeys exCrossLocale "es" = some ["en", "x"] :=
  ⟨rfl, rfl⟩

/-- Claim C5 as amended: the defined-key set for a locale is computed from the span
captured after the first occurrence of the locale's label pattern anywhere in the
catalog text — an occurrence that may lie inside another locale's block, whose keys
then leak in.  What does hold: the catalog text decomposes around the captured
span, and every extracted key is a word token lying inside that span. -/
theorem keys_within_captured_block (script locale : String) (keys : List String)
    (hk : localeKeys script locale = some keys) :
    ∃ cap pre ws rest,
      localeBlock script locale = some cap ∧
      script.data = pre ++ (locale.data ++ [':']) ++ ws ++ '\x7b' :: (cap ++ '\x7d' :: rest) ∧
      ∀ k ∈ keys, k.data <:+: cap := by
  unfold localeKeys at hk
  cases hb : localeBlock script locale with
  | none => rw [hb] at hk; exact absurd hk (by simp)
  | some cap =>
    rw [hb] at hk
    have hkeys : keys = findWordColon cap := by simpa using hk.symm
    have hb2 : searchBlock (locale.data ++ [':']) script.data = some cap := hb
    obtain ⟨pre, ws, rest, hs, -, -, -⟩ := searchBlock_some hb2
    refine ⟨cap, pre, ws, rest, rfl, hs, ?_⟩
    intro k hkm
    rw [hkeys] at hkm
    exact (mem_findWordColon hkm).2.2

/-- Witness for the amended C5, at the cross-locale catalog. -/
theorem keys_within_captured_block_witness :
    ∃ cap pre ws rest,
      localeBlock exCrossLocale "en" = some cap ∧
      exCrossLocale.data =
        pre ++ (("en" : String).data ++ [':']) ++ ws ++ '\x7b' :: (cap ++ '\x7d' :: rest) ∧
      ∀ k ∈ (["x"] : List String), k.data <:+: cap :=
  keys_within_captured_block exCrossLocale "en" ["x"] (by rfl)

/-- A key produced by the attribute scan is never the empty string: the pattern
requires at least one character inside the quotes. -/
theorem scanAttr_ne_empty {marker : List Char} {text : String} {k : String}
    (h : k ∈ scanAttr marker text) : k ≠ "" := by
  unfold scanAttr at h
  simp only [List.mem_map] at h
  obtain ⟨cap, hcap, rfl⟩ := h
  intro hk
  exact mem_scanAttrAux _ _ _ _ hcap (congrArg String.data hk)

/-- Claim C6: the required-key set is the deduplicated union of the quoted values
of the two attribute forms — it has no duplicates and its members are exactly the
members of either match list; zero matches give the empty set rather than a
failure; and a malformed (unterminated) attribute occurrence contributes no key. -/
theorem required_keys_union_dedup :
    (∀ html k, k ∈ requiredKeys html ↔
        k ∈ translateMatches html ∨ k ∈ placeholderMatches html) ∧
    (∀ html, (requiredKeys html).Nodup) ∧
    (∀ html, translateMatches html = [] → placeholderMatches html = [] →
      requiredKeys html = []) ∧
    requiredKeys "data-translate=\x22unterminated" = [] := by
  refine ⟨fun html k => requiredKeys_mem html k, fun html => requiredKeys_nodup html,
    ?_, by rfl⟩
  intro html h1 h2
  unfold requiredKeys
  rw [h1, h2]
  rfl

/-- Witness for C6, at the spec's concrete markup. -/
theorem required_keys_union_dedup_witness :
    "title" ∈ requiredKeys exMarkup ↔
      "title" ∈ translateMatches exMarkup ∨ "title" ∈ placeholderMatches exMarkup :=
  required_keys_union_dedup.1 exMarkup "title"

/-- Claim C7 counterexample: with an empty required-key set (from empty markup) and
a catalog containing no `en` block, the configured locale `en` gets no report at
all — not an explicit complete one — contradicting the claim that every configured
locale's report is complete regardless of the catalog's content. -/
theorem no_block_no_complete_report :
    requiredKeys "" = [] ∧ "en" ∈ locales ∧
    processLocale (requiredKeys "") exNoLabel "en" = none :=
  ⟨rfl, by decide, rfl⟩

/-- Claim C7 as amended: for every locale whose block pattern is found, the
report's complete flag is set exactly when its missing list is empty; and when the
required-key set is empty, every such locale's report is complete with an empty
missing list.  A locale whose block pattern is not found produces no report at
all. -/
theorem complete_iff_missing_empty (sortedKeys : List String) (script locale : String)
    (r : LocaleReport) (hr : processLocale sortedKeys script locale = some r) :
    (r.complete = true ↔ r.missing = []) ∧
    (sortedKeys = [] → r.complete = true ∧ r.missing = []) := by
  unfold processLocale at hr
  cases hk : localeKeys script locale with
  | none => rw [hk] at hr; exact absurd hr (by simp)
  | some keys =>
    rw [hk] at hr
    have hr2 : r = ⟨keys.length, sortedKeys.filter (fun k => decide (k ∉ keys)),
        (sortedKeys.filter (fun k => decide (k ∉ keys))).isEmpty⟩ := by
      simpa using hr.symm
    subst hr2
    refine ⟨List.isEmpty_iff, ?_⟩
    intro hsk
    subst hsk
    simp

/-- Witness for the amended C7, at the spec's concrete catalog with an empty
required-key set. -/
theorem complete_iff_missing_empty_witness :
    (((⟨1, [], true⟩ : LocaleReport).complete = true ↔
        (⟨1, [], true⟩ : LocaleReport).missing = []) ∧
      (([] : List String) = [] → (⟨1, [], true⟩ : LocaleReport).complete = true ∧
        (⟨1, [], true⟩ : LocaleReport).missing = [])) :=
  complete_iff_missing_empty [] exCatalog "en" ⟨1, [], true⟩ (by rfl)

/-- Claim C8: the spec's concrete scenario.  The markup with a `data-translate`
value `title` and a `data-translate-placeholder` value `search` yields the required
keys `search` and `title` (the sorted two-element set); the catalog whose `en`
block contains `title: \x22Hello\x22` yields defined keys `["title"]`; and
reconciling them yields missing `["search"]` with the complete flag false. -/
theorem spec_concrete_scenario :
    requiredKeys exMarkup = ["search", "title"] ∧
    localeKeys exCatalog "en" = some ["title"] ∧
    processLocale (requiredKeys exMarkup) exCatalog "en" =
      some ⟨1, ["search"], false⟩ :=
  ⟨rfl, rfl, rfl⟩

/-- Claim C9: an attribute occurrence with an empty quoted value contributes no
key — the empty string is never a member of the required-key set, because each
attribute pattern requires at least one character inside the quotes. -/
theorem empty_key_never_required (html : String) : "" ∉ requiredKeys html := by
  intro hmem
  rcases (requiredKeys_mem html "").mp hmem with h | h
  · unfold translateMatches at h
    exact scanAttr_ne_empty h rfl
  · unfold placeholderMatches at h
    exact scanAttr_ne_empty h rfl

/-- Witness for C9, at markup containing an empty-valued attribute. -/
theorem empty_key_never_required_witness :
    "" ∉ requiredKeys "<p data-translate=\x22\x22></p>" :=
  empty_key_never_required "<p data-translate=\x22\x22></p>"

/-- Claim C10: every defined key of every locale consists solely of word
characters (letters, digits, underscore); consequently a required key containing a
character outside that class is never among the defined keys and, whenever the
locale's block is found, appears in that locale's missing list. -/
theorem defined_keys_word_chars (script locale : String) (keys : List String)
    (hk : localeKeys script locale = some keys) :
    (∀ k ∈ keys, k ≠ "" ∧ k.data.all isWordChar = true) ∧
    (∀ (sortedKeys : List String) (r : LocaleReport) (rk : String),
      processLocale sortedKeys script locale = some r → rk ∈ sortedKeys →
      (∃ c ∈ rk.data, isWordChar c = false) → rk ∈ r.missing) := by
  have hkeys : ∀ k ∈ keys, k.data ≠ [] ∧ k.data.all isWordChar = true := by
    intro k hkm
    unfold localeKeys at hk
    cases hb : localeBlock script locale with
    | none => rw [hb] at hk; exact absurd hk (by simp)
    | some cap =>
      rw [hb] at hk
      have hkc : keys = findWordColon cap := by simpa using hk.symm
      rw [hkc] at hkm
      have hm := mem_findWordColon hkm
      exact ⟨hm.1, hm.2.1⟩
  constructor
  · intro k hkm
    obtain ⟨h1, h2⟩ := hkeys k hkm
    refine ⟨?_, h2⟩
    intro hke
    exact h1 (congrArg String.data hke)
  · intro sortedKeys r rk hr hrk hbad
    obtain ⟨c, hc, hcw⟩ := hbad
    have heq := @processLocale_eq sortedKeys script locale keys hk
    rw [hr] at heq
    have hr2 := Option.some.inj heq
    subst hr2
    rw [List.mem_filter]
    refine ⟨hrk, ?_⟩
    rw [decide_eq_true_iff]
    intro hinkeys
    obtain ⟨-, hall⟩ := hkeys rk hinkeys
    rw [List.all_eq_true] at hall
    have hcontra := hall c hc
    rw [hcw] at hcontra
    exact absurd hcontra (by simp)

/-- Witness for C10: the hyphenated required key `my-key` lands in the missing
list of the `en` locale of the spec's concrete catalog. -/
theorem defined_keys_word_chars_witness :
    "my-key" ∈ (⟨1, ["my-key"], false⟩ : LocaleReport).missing :=
  (defined_keys_word_chars exCatalog "en" ["title"] (by rfl)).2 ["my-key"]
    ⟨1, ["my-key"], false⟩ "my-key" (by rfl) (by decide) ⟨'-', by decide, by rfl⟩
